import Mathlib

/-!
Verification of the USI (Universal Shogi Interface) protocol layer of the
shogi-game repository: the command encoder (`usi/commands.rs`), the response
parser (`usi/parser.rs`) and the engine process/session manager
(`usi/engine.rs`) are embedded shallowly and their specified properties are
settled as theorems.

Strings are Lean `String`s; the Rust string primitives used by the code
(`trim`, `starts_with`, `split_whitespace`, `parse::<uN>/<iN>`) are modelled
as executable functions on the underlying character lists.
-/

namespace Usi

/-- The space character (the separator the encoder emits). -/
def spc : Char := ' '

/-- Worker for `wsTokens`; `cur` holds the characters of the token being
read, in reverse. -/
def wsTokensAux : List Char → List Char → List (List Char)
  | [], cur => if cur.isEmpty then [] else [cur.reverse]
  | c :: cs, cur =>
    if c.isWhitespace then
      if cur.isEmpty then wsTokensAux cs [] else cur.reverse :: wsTokensAux cs []
    else wsTokensAux cs (c :: cur)

/-- Model of Rust `str::split_whitespace` on a character list: maximal runs
of non-whitespace characters, with whitespace-only input producing no
tokens. -/
def wsTokens (l : List Char) : List (List Char) := wsTokensAux l []

/-- Model of Rust `str::trim` on a character list: drop whitespace from both
ends. -/
def trimChars (l : List Char) : List Char :=
  ((l.dropWhile Char.isWhitespace).reverse.dropWhile Char.isWhitespace).reverse

/-- Model of Rust `str::trim`. -/
def strTrim (s : String) : String := String.mk (trimChars s.data)

/-- Model of Rust `str::split_whitespace().collect::<Vec<_>>()`. -/
def splitWhitespace (s : String) : List String :=
  (wsTokens s.data).map String.mk

/-- Boolean prefix test on character lists (model of Rust
`str::starts_with`). -/
def isPrefList : List Char → List Char → Bool
  | [], _ => true
  | _ :: _, [] => false
  | p :: ps, x :: xs => p == x && isPrefList ps xs

/-- Accumulate the value of a digit string; `none` as soon as a non-digit
appears (Rust integer parsing accepts ASCII digits only). -/
def digitsVal : List Char → Nat → Option Nat
  | [], acc => some acc
  | c :: cs, acc =>
    if c.isDigit then digitsVal cs (acc * 10 + (c.toNat - 48)) else none

/-- Value of a non-empty all-digit string, `none` otherwise. -/
def digitsToNat (l : List Char) : Option Nat :=
  match l with
  | [] => none
  | _ :: _ => digitsVal l 0

/-- Model of Rust `str::parse::<uN>().ok()`: an optional leading `+`, then a
non-empty digit string, rejected on overflow past `maxVal`. -/
def parseUnsigned (maxVal : Nat) (s : String) : Option Nat :=
  let l := match s.data with
           | '+' :: rest => rest
           | l => l
  match digitsToNat l with
  | some n => if n ≤ maxVal then some n else none
  | none => none

/-- Rust `str::parse::<u32>().ok()`. -/
def parseU32 (s : String) : Option Nat := parseUnsigned (2 ^ 32 - 1) s

/-- Rust `str::parse::<u64>().ok()`. -/
def parseU64 (s : String) : Option Nat := parseUnsigned (2 ^ 64 - 1) s

/-- Rust `str::parse::<i32>().ok()`: optional sign, digits, checked against
the `i32` range. -/
def parseI32 (s : String) : Option Int :=
  match s.data with
  | '-' :: rest =>
    match digitsToNat rest with
    | some n => if n ≤ 2 ^ 31 then some (-(n : Int)) else none
    | none => none
  | '+' :: rest =>
    match digitsToNat rest with
    | some n => if n ≤ 2 ^ 31 - 1 then some (n : Int) else none
    | none => none
  | l =>
    match digitsToNat l with
    | some n => if n ≤ 2 ^ 31 - 1 then some (n : Int) else none
    | none => none

/-- `ThinkingInfo` from `usi/parser.rs`: the engine search telemetry record.
`depth`/`time` are `u32`, `nodes`/`nps` are `u64` (modelled as `Nat`),
`score_cp` is `i32` (modelled as `Int`). -/
structure ThinkingInfo where
  depth : Option Nat
  score_cp : Option Int
  nodes : Option Nat
  nps : Option Nat
  time : Option Nat
  pv : List String
deriving DecidableEq

/-- `ThinkingInfo::new()`. -/
def ThinkingInfo.new : ThinkingInfo :=
  { depth := none, score_cp := none, nodes := none, nps := none,
    time := none, pv := [] }

/-- `UsiResponse` from `usi/parser.rs`. -/
inductive UsiResponse where
  | UsiOk
  | ReadyOk
  | BestMove (best_move : String) (ponder : Option String)
  | Info (i : ThinkingInfo)
  | Unknown (s : String)
deriving DecidableEq

/-- `parse_bestmove` from `usi/parser.rs`: split on whitespace; fewer than
two tokens is `Unknown`; otherwise token 1 is the move, and tokens 2-3 give
the ponder move when token 2 is the literal `ponder`. -/
def parse_bestmove (line : String) : UsiResponse :=
  let parts := splitWhitespace line
  if parts.length < 2 then .Unknown line
  else
    .BestMove (parts.getD 1 "")
      (if 4 ≤ parts.length ∧ parts.getD 2 "" = "ponder"
       then some (parts.getD 3 "") else none)

/-- The scanning loop of `parse_info` from `usi/parser.rs`, acting on the
tokens after the cursor.  Each recognized keyword consumes itself and its
value tokens; `score` requires the `cp` subtype and otherwise advances by
one; `pv` takes every remaining token and stops; unrecognized tokens advance
by one; a keyword whose value would fall past the end advances past the end,
terminating the scan. -/
def info_scan : List String → ThinkingInfo → ThinkingInfo
  | [], acc => acc
  | "depth" :: v :: rest, acc => info_scan rest { acc with depth := parseU32 v }
  | ["depth"], acc => acc
  | "score" :: "cp" :: v :: rest, acc =>
    info_scan rest { acc with score_cp := parseI32 v }
  | "score" :: rest, acc => info_scan rest acc
  | "nodes" :: v :: rest, acc => info_scan rest { acc with nodes := parseU64 v }
  | ["nodes"], acc => acc
  | "nps" :: v :: rest, acc => info_scan rest { acc with nps := parseU64 v }
  | ["nps"], acc => acc
  | "time" :: v :: rest, acc => info_scan rest { acc with time := parseU32 v }
  | ["time"], acc => acc
  | "pv" :: rest, acc => { acc with pv := rest }
  | _ :: rest, acc => info_scan rest acc

/-- `parse_info` from `usi/parser.rs`: tokenize and scan from index 1
(skipping the leading tag token).  Always produces `Info`. -/
def parse_info (line : String) : UsiResponse :=
  .Info (info_scan ((splitWhitespace line).drop 1) ThinkingInfo.new)

/-- `parse_usi_line` from `usi/parser.rs`: trim, then dispatch on the empty
line, the exact lines `usiok`/`readyok`, the prefixes `bestmove` and `info`,
with everything else `Unknown`. -/
def parse_usi_line (line : String) : UsiResponse :=
  let trimmed := strTrim line
  if trimmed = "" then .Unknown ""
  else if trimmed = "usiok" then .UsiOk
  else if trimmed = "readyok" then .ReadyOk
  else if isPrefList "bestmove".data trimmed.data then parse_bestmove trimmed
  else if isPrefList "info".data trimmed.data then parse_info trimmed
  else .Unknown trimmed

/-! ### Command encoder (`usi/commands.rs`) -/

/-- `build_usi_command`. -/
def build_usi_command : String := "usi"

/-- `build_isready_command`. -/
def build_isready_command : String := "isready"

/-- `build_position_command`: `position sfen <sfen>` with
` moves <m1> <m2> ...` appended (space-joined) when `moves` is non-empty. -/
def build_position_command (sfen : String) (moves : List String) : String :=
  if moves.isEmpty then "position sfen " ++ sfen
  else "position sfen " ++ sfen ++ " moves " ++ String.intercalate " " moves

/-- `build_go_byoyomi_command`. -/
def build_go_byoyomi_command (time_ms : Nat) : String :=
  "go byoyomi " ++ toString time_ms

/-- `build_go_time_command`. -/
def build_go_time_command (btime wtime binc winc : Nat) : String :=
  "go btime " ++ toString btime ++ " wtime " ++ toString wtime ++
    " binc " ++ toString binc ++ " winc " ++ toString winc

/-- `build_go_depth_command`. -/
def build_go_depth_command (depth : Nat) : String := "go depth " ++ toString depth

/-- `build_stop_command`. -/
def build_stop_command : String := "stop"

/-- `build_quit_command`. -/
def build_quit_command : String := "quit"

/-- `build_usinewgame_command`. -/
def build_usinewgame_command : String := "usinewgame"

/-- `build_setoption_command`. -/
def build_setoption_command (name value : String) : String :=
  "setoption name " ++ name ++ " value " ++ value

/-! ### Engine process manager (`usi/engine.rs`)

The `UsiEngine` struct holds an optional process handle (`child`), an
optional write end of its stdin (`stdin`) and the shared line buffer filled
by the background reader thread.  The `Option<Child>` / `Option<ChildStdin>`
handles are modelled by their `is_some` status, which is all the code ever
branches on; the lines written to the engine are recorded in the ghost field
`sent`.  Each method of the Rust impl takes `&mut self`, so every modelled
operation returns the result paired with the state after the call (also on
the error paths).  During one call the buffer holds the lines already
received; the background reader appending a line between calls is modelled
by `pushLine`. -/

structure UsiEngine where
  child : Bool
  stdin : Bool
  response_buffer : List String
  sent : List String
deriving DecidableEq

/-- `UsiEngine::new`. -/
def UsiEngine.new : UsiEngine :=
  { child := false, stdin := false, response_buffer := [], sent := [] }

/-- The ways `UsiEngine::start` can go: process spawn failure, failure to
capture a stream, or success. -/
inductive StartOutcome where
  | spawnFail
  | stdinFail
  | stdoutFail
  | ok
deriving DecidableEq

/-- `UsiEngine::start`: on any failure the fields of `self` are untouched;
on success the process and its stdin are installed (the background reader
thread is spawned, modelled by later `pushLine` events). -/
def UsiEngine.start (st : UsiEngine) (outcome : StartOutcome) :
    Except String Unit × UsiEngine :=
  match outcome with
  | .spawnFail => (.error "Failed to start engine process", st)
  | .stdinFail => (.error "Failed to capture engine stdin", st)
  | .stdoutFail => (.error "Failed to capture engine stdout", st)
  | .ok => (.ok (), { st with child := true, stdin := true })

/-- The background reader thread appending one received line to the shared
buffer. -/
def UsiEngine.pushLine (st : UsiEngine) (line : String) : UsiEngine :=
  { st with response_buffer := st.response_buffer ++ [line] }

/-- `UsiEngine::send_command`: writes the line when the stdin handle is
present, fails with `Engine not started` otherwise. -/
def UsiEngine.send_command (st : UsiEngine) (command : String) :
    Except String Unit × UsiEngine :=
  if st.stdin then (.ok (), { st with sent := st.sent ++ [command] })
  else (.error "Engine not started", st)

/-- The polling loop of `UsiEngine::read_response_line`: pop the oldest
buffered line if any; otherwise fail once the elapsed time exceeds the
timeout, else sleep 10 ms and poll again.  The `Nat` returned with the
result is a ghost count of the sleeps performed. -/
def UsiEngine.read_poll (st : UsiEngine) (timeout_ms elapsed : Nat) :
    (Except String String × UsiEngine) × Nat :=
  match st.response_buffer with
  | line :: rest => ((.ok line, { st with response_buffer := rest }), 0)
  | [] =>
    if timeout_ms < elapsed then
      ((.error "Timeout waiting for engine response", st), 0)
    else
      let r := UsiEngine.read_poll st timeout_ms (elapsed + 10)
      (r.1, r.2 + 1)
termination_by timeout_ms + 1 - elapsed
decreasing_by omega

/-- `UsiEngine::read_response_line`. -/
def UsiEngine.read_response_line (st : UsiEngine) (timeout_ms : Nat) :
    Except String String × UsiEngine :=
  (st.read_poll timeout_ms 0).1

/-- On an empty buffer the polling loop always times out, leaving the state
unchanged. -/
theorem read_poll_buffer_empty (st : UsiEngine) (t e : Nat)
    (h : st.response_buffer = []) :
    (st.read_poll t e).1 = (.error "Timeout waiting for engine response", st) := by
  rw [UsiEngine.read_poll]
  split
  · rw [h] at *; simp_all
  · split
    · rfl
    · exact read_poll_buffer_empty st t (e + 10) h
termination_by t + 1 - e
decreasing_by omega

/-- On an empty buffer the polling loop sleeps exactly
`(timeout - elapsed) / 10 + 1` times before timing out. -/
theorem read_poll_sleeps (st : UsiEngine) (t e : Nat)
    (h : st.response_buffer = []) :
    (st.read_poll t e).2 = (if t < e then 0 else (t - e) / 10 + 1) := by
  rw [UsiEngine.read_poll]
  split
  · rw [h] at *; simp_all
  · split
    · simp [*]
    · have ih := read_poll_sleeps st t (e + 10) h
      dsimp only
      rw [ih]
      split <;> omega
termination_by t + 1 - e
decreasing_by omega

/-- On a non-empty buffer the polling loop immediately pops the oldest line,
with no sleep, for every timeout and elapsed time. -/
theorem read_poll_buffer_cons (st : UsiEngine) (t e : Nat) (l : String)
    (rest : List String) (h : st.response_buffer = l :: rest) :
    st.read_poll t e =
      ((.ok l, { st with response_buffer := rest }), 0) := by
  rw [UsiEngine.read_poll]
  split <;> simp_all

/-- A successful `read_response_line` pops exactly the oldest buffered
line. -/
theorem read_response_line_ok (st : UsiEngine) (t : Nat) (l : String)
    (st2 : UsiEngine) (h : st.read_response_line t = (.ok l, st2)) :
    st.response_buffer = l :: st2.response_buffer := by
  cases hb : st.response_buffer with
  | nil =>
    rw [UsiEngine.read_response_line, read_poll_buffer_empty st t 0 hb] at h
    simp at h
  | cons x xs =>
    rw [UsiEngine.read_response_line, read_poll_buffer_cons st t 0 x xs hb] at h
    simp only [Prod.mk.injEq, Except.ok.injEq] at h
    obtain ⟨h1, h2⟩ := h
    subst h1 h2
    simp [hb]

/-- Does a response match `UsiResponse::UsiOk`? -/
def isUsiOk : UsiResponse → Bool
  | .UsiOk => true
  | _ => false

/-- Does a response match `UsiResponse::ReadyOk`? -/
def isReadyOk : UsiResponse → Bool
  | .ReadyOk => true
  | _ => false

/-- The receive loops of `UsiEngine::init`: read lines (with the given
per-line timeout), discarding everything until a line classifying to the
awaited variant arrives; propagate a read timeout. -/
def UsiEngine.wait_for (st : UsiEngine) (timeout : Nat)
    (pred : UsiResponse → Bool) : Except String Unit × UsiEngine :=
  match h : st.read_response_line timeout with
  | (.error e, st2) => (.error e, st2)
  | (.ok line, st2) =>
    if pred (parse_usi_line line) then (.ok (), st2)
    else st2.wait_for timeout pred
termination_by st.response_buffer.length
decreasing_by
  rw [read_response_line_ok st timeout line st2 h]
  simp

/-- `UsiEngine::init`: send `usi`, wait for `usiok` (5 s per line), then
send `isready` and wait for `readyok`. -/
def UsiEngine.init (st : UsiEngine) : Except String Unit × UsiEngine :=
  match st.send_command build_usi_command with
  | (.error e, st1) => (.error e, st1)
  | (.ok _, st1) =>
    match st1.wait_for 5000 isUsiOk with
    | (.error e, st2) => (.error e, st2)
    | (.ok _, st2) =>
      match st2.send_command build_isready_command with
      | (.error e, st3) => (.error e, st3)
      | (.ok _, st3) => st3.wait_for 5000 isReadyOk

/-- The receive loop of `UsiEngine::get_best_move`: read lines, returning
the move of the first line classifying to `BestMove` and discarding every
other response (`Info` lines included); propagate a read timeout. -/
def UsiEngine.bestmove_loop (st : UsiEngine) (timeout_ms : Nat) :
    Except String String × UsiEngine :=
  match h : st.read_response_line timeout_ms with
  | (.error e, st2) => (.error e, st2)
  | (.ok line, st2) =>
    match parse_usi_line line with
    | .BestMove best_move _ => (.ok best_move, st2)
    | _ => st2.bestmove_loop timeout_ms
termination_by st.response_buffer.length
decreasing_by
  rw [read_response_line_ok st timeout_ms line st2 h]
  simp

/-- `UsiEngine::get_best_move`: send the position command (always with an
empty move list) and the `go byoyomi` command, then run the receive loop
with a per-line timeout of `time_ms + 5000` ms. -/
def UsiEngine.get_best_move (st : UsiEngine) (sfen : String) (time_ms : Nat) :
    Except String String × UsiEngine :=
  match st.send_command (build_position_command sfen []) with
  | (.error e, st1) => (.error e, st1)
  | (.ok _, st1) =>
    match st1.send_command (build_go_byoyomi_command time_ms) with
    | (.error e, st2) => (.error e, st2)
    | (.ok _, st2) => st2.bestmove_loop (time_ms + 5000)

/-- `UsiEngine::stop`. -/
def UsiEngine.stop (st : UsiEngine) : Except String Unit × UsiEngine :=
  st.send_command build_stop_command

/-- `UsiEngine::quit`: send `quit` (propagating its failure), then kill and
reap the process if present and clear both handles. -/
def UsiEngine.quit (st : UsiEngine) : Except String Unit × UsiEngine :=
  match st.send_command build_quit_command with
  | (.error e, st1) => (.error e, st1)
  | (.ok _, st1) => (.ok (), { st1 with child := false, stdin := false })

/-- `UsiEngine::is_running`. -/
def UsiEngine.is_running (st : UsiEngine) : Bool := st.child

/-- `UsiEngine::new_game`. -/
def UsiEngine.new_game (st : UsiEngine) : Except String Unit × UsiEngine :=
  st.send_command build_usinewgame_command

/-- `UsiEngine::set_option`. -/
def UsiEngine.set_option (st : UsiEngine) (name value : String) :
    Except String Unit × UsiEngine :=
  st.send_command (build_setoption_command name value)

/-- The first line of a buffer that classifies to `BestMove`, together with
the lines after it (what the receive loop of `get_best_move` leaves in the
buffer). -/
def first_best_move : List String → Option (String × List String)
  | [] => none
  | l :: rest =>
    match parse_usi_line l with
    | .BestMove m _ => some (m, rest)
    | _ => first_best_move rest

/-- `read_response_line` on an empty buffer: timeout, state unchanged. -/
theorem read_response_line_empty (st : UsiEngine) (t : Nat)
    (h : st.response_buffer = []) :
    st.read_response_line t = (.error "Timeout waiting for engine response", st) := by
  rw [UsiEngine.read_response_line, read_poll_buffer_empty st t 0 h]

/-- `read_response_line` on a non-empty buffer: pops the oldest line. -/
theorem read_response_line_cons (st : UsiEngine) (t : Nat) (l : String)
    (rest : List String) (h : st.response_buffer = l :: rest) :
    st.read_response_line t = (.ok l, { st with response_buffer := rest }) := by
  rw [UsiEngine.read_response_line, read_poll_buffer_cons st t 0 l rest h]

/-- What the receive loop of `get_best_move` computes: the first buffered
line classifying to `BestMove` (leaving the later lines in the buffer), or a
timeout after draining the whole buffer. -/
theorem bestmove_loop_spec (st : UsiEngine) (t : Nat) :
    st.bestmove_loop t =
      match first_best_move st.response_buffer with
      | some (m, rem) => (.ok m, { st with response_buffer := rem })
      | none => (.error "Timeout waiting for engine response",
                 { st with response_buffer := [] }) := by
  cases hb : st.response_buffer with
  | nil =>
    rw [UsiEngine.bestmove_loop]
    rw [read_response_line_empty st t hb]
    cases st
    simp_all [first_best_move]
  | cons l rest =>
    rw [UsiEngine.bestmove_loop]
    rw [read_response_line_cons st t l rest hb]
    have ih := bestmove_loop_spec { st with response_buffer := rest } t
    simp only [first_best_move, hb]
    cases hp : parse_usi_line l with
    | BestMove m p => simp
    | UsiOk => simp only; rw [ih]
    | ReadyOk => simp only; rw [ih]
    | Info i => simp only; rw [ih]
    | Unknown s => simp only; rw [ih]
termination_by st.response_buffer.length
decreasing_by all_goals simp [hb]

/-- `send_command` never touches the process or stdin handles. -/
theorem send_command_handles (st : UsiEngine) (c : String) :
    (st.send_command c).2.stdin = st.stdin ∧
    (st.send_command c).2.child = st.child := by
  rw [UsiEngine.send_command]
  split <;> simp

/-- `read_response_line` never touches the process or stdin handles. -/
theorem read_response_line_handles (st : UsiEngine) (t : Nat) :
    (st.read_response_line t).2.stdin = st.stdin ∧
    (st.read_response_line t).2.child = st.child := by
  cases hb : st.response_buffer with
  | nil => rw [read_response_line_empty st t hb]; exact ⟨rfl, rfl⟩
  | cons l rest => rw [read_response_line_cons st t l rest hb]; exact ⟨rfl, rfl⟩

/-- The `init` receive loops never touch the process or stdin handles. -/
theorem wait_for_handles (st : UsiEngine) (t : Nat) (p : UsiResponse → Bool) :
    (st.wait_for t p).2.stdin = st.stdin ∧
    (st.wait_for t p).2.child = st.child := by
  cases hb : st.response_buffer with
  | nil =>
    rw [UsiEngine.wait_for]
    rw [read_response_line_empty st t hb]
    exact ⟨rfl, rfl⟩
  | cons l rest =>
    rw [UsiEngine.wait_for]
    rw [read_response_line_cons st t l rest hb]
    have ih := wait_for_handles { st with response_buffer := rest } t p
    simp only
    split
    · exact ⟨rfl, rfl⟩
    · exact ih
termination_by st.response_buffer.length
decreasing_by all_goals simp [hb]

/-- The `get_best_move` receive loop never touches the handles. -/
theorem bestmove_loop_handles (st : UsiEngine) (t : Nat) :
    (st.bestmove_loop t).2.stdin = st.stdin ∧
    (st.bestmove_loop t).2.child = st.child := by
  rw [bestmove_loop_spec]
  cases first_best_move st.response_buffer with
  | none => simp
  | some v => simp

/-- `init` never touches the handles. -/
theorem init_handles (st : UsiEngine) :
    (st.init).2.stdin = st.stdin ∧ (st.init).2.child = st.child := by
  rw [UsiEngine.init]
  split <;> rename_i st1 heq1 <;>
    have e1 := send_command_handles st build_usi_command <;>
    rw [heq1] at e1
  · exact e1
  · split <;> rename_i st2 heq2 <;>
      have e2 := wait_for_handles st1 5000 isUsiOk <;>
      rw [heq2] at e2
    · exact ⟨e2.1.trans e1.1, e2.2.trans e1.2⟩
    · split <;> rename_i st3 heq3 <;>
        have e3 := send_command_handles st2 build_isready_command <;>
        rw [heq3] at e3
      · exact ⟨e3.1.trans (e2.1.trans e1.1), e3.2.trans (e2.2.trans e1.2)⟩
      · have e4 := wait_for_handles st3 5000 isReadyOk
        exact ⟨e4.1.trans (e3.1.trans (e2.1.trans e1.1)),
               e4.2.trans (e3.2.trans (e2.2.trans e1.2))⟩

/-- `get_best_move` never touches the handles. -/
theorem get_best_move_handles (st : UsiEngine) (sfen : String) (t : Nat) :
    (st.get_best_move sfen t).2.stdin = st.stdin ∧
    (st.get_best_move sfen t).2.child = st.child := by
  rw [UsiEngine.get_best_move]
  split <;> rename_i st1 heq1 <;>
    have e1 := send_command_handles st (build_position_command sfen []) <;>
    rw [heq1] at e1
  · exact e1
  · split <;> rename_i st2 heq2 <;>
      have e2 := send_command_handles st1 (build_go_byoyomi_command t) <;>
      rw [heq2] at e2
    · exact ⟨e2.1.trans e1.1, e2.2.trans e1.2⟩
    · have e3 := bestmove_loop_handles st2 (t + 5000)
      exact ⟨e3.1.trans (e2.1.trans e1.1), e3.2.trans (e2.2.trans e1.2)⟩

/-! ### Splitting on a multi-character separator

Used to state the round-trip property of the position command: the spec
reads the move list back out of the produced string by splitting on the
literal separator `" moves "` and re-splitting the right part on spaces. -/

/-- Split at the first occurrence of `sep`: `some (a, b)` with
`l = a ++ sep ++ b` at the leftmost occurrence, `none` when `sep` does not
occur in `l`. -/
def breakOnSep (sep : List Char) : List Char → Option (List Char × List Char)
  | [] => none
  | x :: xs =>
    if isPrefList sep (x :: xs) then some ([], (x :: xs).drop sep.length)
    else
      match breakOnSep sep xs with
      | none => none
      | some (a, b) => some (x :: a, b)

/-- Split on every occurrence of `sep`, leftmost first; `fuel` bounds the
recursion and `l.length + 1` always suffices. -/
def splitOnSepFuel (sep : List Char) : Nat → List Char → List (List Char)
  | 0, l => [l]
  | fuel + 1, l =>
    match breakOnSep sep l with
    | none => [l]
    | some (a, b) => a :: splitOnSepFuel sep fuel b

/-- Split a character list on every occurrence of `sep`. -/
def splitOnSep (sep l : List Char) : List (List Char) :=
  splitOnSepFuel sep (l.length + 1) l

/-- Modelled from the spec (§8, round-trip of `position`): recover the move
list from a produced position command by splitting on the literal
`" moves "` separator and re-splitting the right part on spaces. -/
def roundTripMoves (s : String) : List String :=
  match splitOnSep " moves ".data s.data with
  | [_, right] => (right.splitOn spc).map String.mk
  | _ => []

theorem isPrefList_iff (p : List Char) : ∀ l : List Char,
    isPrefList p l = true ↔ ∃ t, l = p ++ t := by
  induction p with
  | nil => intro l; simp [isPrefList]
  | cons c p ih =>
    intro l
    cases l with
    | nil => simp [isPrefList]
    | cons x xs =>
      simp only [isPrefList, Bool.and_eq_true, beq_iff_eq, ih xs,
        List.cons_append, List.cons.injEq]
      constructor
      · rintro ⟨rfl, t, rfl⟩; exact ⟨t, rfl, rfl⟩
      · rintro ⟨t, rfl, rfl⟩; exact ⟨rfl, t, rfl⟩

theorem breakOnSep_sound (sep : List Char) : ∀ l a b : List Char,
    breakOnSep sep l = some (a, b) → l = a ++ sep ++ b := by
  intro l
  induction l with
  | nil => intro a b h; simp [breakOnSep] at h
  | cons x xs ih =>
    intro a b h
    rw [breakOnSep] at h
    split at h
    · rename_i hpre
      obtain ⟨t, ht⟩ := (isPrefList_iff sep (x :: xs)).1 hpre
      simp only [Option.some.injEq, Prod.mk.injEq] at h
      obtain ⟨ha, hb⟩ := h
      subst ha
      rw [ht, List.drop_left] at hb
      subst hb
      simpa using ht
    · split at h
      · simp at h
      · rename_i a2 b2 hrec
        simp only [Option.some.injEq, Prod.mk.injEq] at h
        obtain ⟨ha, hb⟩ := h
        rw [← ha, ← hb]
        simp [ih a2 b2 hrec]

/-- If `sep` occurs nowhere in `l`, `breakOnSep` finds nothing. -/
theorem breakOnSep_none (sep l : List Char)
    (h : ∀ a b : List Char, l ≠ a ++ sep ++ b) :
    breakOnSep sep l = none := by
  cases hbr : breakOnSep sep l with
  | none => rfl
  | some v =>
    exact absurd (breakOnSep_sound sep l v.1 v.2 (by rw [hbr])) (h v.1 v.2)

/-- `breakOnSep` finds a decomposition whose left part is unique. -/
theorem breakOnSep_first (sep : List Char) (hsep : sep ≠ []) : ∀ a l b : List Char,
    l = a ++ sep ++ b →
    (∀ a2 b2 : List Char, l = a2 ++ sep ++ b2 → a2 = a) →
    breakOnSep sep l = some (a, b) := by
  intro a
  induction a with
  | nil =>
    intro l b hl _
    cases hs : sep with
    | nil => exact absurd hs hsep
    | cons s0 srest =>
      subst hs
      simp only [List.nil_append] at hl
      subst hl
      simp only [List.cons_append]
      rw [breakOnSep]
      rw [if_pos ((isPrefList_iff _ _).2 ⟨b, by simp⟩)]
      simp [List.drop_left]
  | cons x a2 ih =>
    intro l b hl huniq
    subst hl
    simp only [List.cons_append]
    rw [breakOnSep]
    rw [if_neg ?nopre]
    case nopre =>
      intro hpre
      obtain ⟨t, ht⟩ := (isPrefList_iff sep _).1 hpre
      have := huniq [] t (by simpa using ht)
      simp at this
    have hrec := ih (a2 ++ sep ++ b) b rfl ?uniq2
    case uniq2 =>
      intro a3 b3 h3
      have := huniq (x :: a3) b3 (by simp [h3])
      simpa using this
    simp only [List.cons_append] at hrec ⊢
    rw [hrec]

/-- With no occurrence found, `splitOnSepFuel` returns the single chunk for
every fuel value. -/
theorem splitOnSepFuel_none (sep l : List Char) (f : Nat)
    (h : breakOnSep sep l = none) : splitOnSepFuel sep f l = [l] := by
  cases f with
  | zero => rfl
  | succ f2 => rw [splitOnSepFuel, h]

theorem data_injective {s t : String} (h : s.data = t.data) : s = t :=
  congrArg String.mk h

theorem mk_data_eq (s : String) : String.mk s.data = s := rfl

/-- Splitting on a single character distributes over an occurrence of that
character. -/
theorem splitOn_append_sep (c : Char) (b : List Char) : ∀ a : List Char,
    (a ++ c :: b).splitOn c = a.splitOn c ++ b.splitOn c := by
  intro a
  induction a with
  | nil => simp [List.splitOn, List.splitOnP_cons]
  | cons x xs ih =>
    simp only [List.cons_append, List.splitOn, List.splitOnP_cons] at ih ⊢
    by_cases hx : x = c
    · simp [hx, ih]
    · simp only [beq_iff_eq, hx, if_neg, if_false]
      rw [ih]
      cases hsp : xs.splitOnP (· == c) with
      | nil => exact absurd hsp (List.splitOnP_ne_nil _ xs)
      | cons h t => simp

/-- A chunk free of the separator splits into itself alone. -/
theorem splitOn_eq_single {c : Char} {l : List Char} (h : c ∉ l) :
    l.splitOn c = [l] := by
  apply List.splitOnP_eq_single
  intro x hx
  simp only [beq_iff_eq]
  rintro rfl; exact h hx

/-- A list with `m` at a unique position decomposes uniquely around it. -/
theorem single_sep_eq {α : Type} [DecidableEq α] (m : α) : ∀ w1 w2 v1 v2 : List α,
    w1 ++ m :: v1 = w2 ++ m :: v2 → m ∉ w1 → m ∉ w2 → w1 = w2 ∧ v1 = v2 := by
  intro w1
  induction w1 with
  | nil =>
    intro w2 v1 v2 h h1 h2
    cases w2 with
    | nil => simpa using h
    | cons d w2t =>
      simp only [List.nil_append, List.cons_append, List.cons.injEq] at h
      obtain ⟨rfl, _⟩ := h
      exact absurd (List.mem_cons_self _ _) h2
  | cons d w1t ih =>
    intro w2 v1 v2 h h1 h2
    cases w2 with
    | nil =>
      simp only [List.cons_append, List.nil_append, List.cons.injEq] at h
      obtain ⟨rfl, _⟩ := h
      exact absurd (List.mem_cons_self _ _) h1
    | cons d2 w2t =>
      simp only [List.cons_append, List.cons.injEq] at h
      obtain ⟨rfl, h⟩ := h
      have := ih w2t v1 v2 h (fun hm => h1 (List.mem_cons_of_mem _ hm))
        (fun hm => h2 (List.mem_cons_of_mem _ hm))
      exact ⟨by rw [this.1], this.2⟩

theorem intercalate_cons_flatten {α : Type} (sep x : List α) :
    ∀ xs : List (List α),
    List.intercalate sep (x :: xs) = x ++ (xs.map (fun y => sep ++ y)).flatten := by
  intro xs
  induction xs generalizing x with
  | nil => simp [List.intercalate]
  | cons y ys ih =>
    simp only [List.intercalate, List.intersperse_cons_cons, List.flatten_cons] at ih ⊢
    rw [ih y]
    simp [List.append_assoc]

theorem intercalate_go_data (s : String) : ∀ (as : List String) (acc : String),
    (String.intercalate.go acc s as).data
      = acc.data ++ (as.map (fun x => s.data ++ x.data)).flatten := by
  intro as
  induction as with
  | nil => intro acc; simp [String.intercalate.go]
  | cons a as ih =>
    intro acc
    rw [String.intercalate.go, ih]
    simp [List.append_assoc]

/-- `String.intercalate` at the level of the underlying character lists. -/
theorem intercalate_data (s : String) (l : List String) :
    (String.intercalate s l).data
      = List.intercalate s.data (l.map String.data) := by
  cases l with
  | nil => rfl
  | cons a as =>
    rw [String.intercalate, intercalate_go_data]
    rw [List.map_cons, intercalate_cons_flatten]
    simp only [List.map_map]
    rfl

/-- Words of a string around one occurrence of the `" moves "` separator. -/
theorem words_occurrence (x y : List Char) :
    (x ++ " moves ".data ++ y).splitOn spc
      = x.splitOn spc ++ ("moves".data :: y.splitOn spc) := by
  have h1 : x ++ " moves ".data ++ y = x ++ spc :: ("moves".data ++ spc :: y) := by
    have hsep : " moves ".data = spc :: ("moves".data ++ [spc]) := by decide
    simp [hsep, spc, List.append_assoc]
  rw [h1, splitOn_append_sep, splitOn_append_sep]
  rw [splitOn_eq_single (by decide : spc ∉ "moves".data)]
  rfl

/-- On a command built from whitespace-disciplined tokens, `" moves "`
occurs exactly where `build_position_command` put it, so splitting on it
recovers the prefix and the joined move list. -/
theorem position_splitOnSep (board : String) (moves : List String)
    (hmoves : ∀ m ∈ moves, spc ∉ m.data ∧ m ≠ "moves")
    (hboard : "moves".data ∉ board.data.splitOn spc)
    (hne : moves ≠ []) :
    splitOnSep " moves ".data (build_position_command board moves).data =
      [("position sfen " ++ board).data, (String.intercalate " " moves).data] := by
  have hif : moves.isEmpty = false := by
    cases moves with
    | nil => exact absurd rfl hne
    | cons a l => rfl
  have hbuild : (build_position_command board moves).data
      = ("position sfen " ++ board).data ++ " moves ".data
          ++ (String.intercalate " " moves).data := by
    simp [build_position_command, hif, List.append_assoc]
  have hwordsJ : (String.intercalate " " moves).data.splitOn spc
      = moves.map String.data := by
    have hJd : (String.intercalate " " moves).data
        = List.intercalate [spc] (moves.map String.data) := by
      rw [intercalate_data]; rfl
    rw [hJd]
    refine List.splitOn_intercalate (moves.map String.data) spc ?hx ?hls
    case hx =>
      intro l hl
      obtain ⟨m, hm, rfl⟩ := List.mem_map.1 hl
      exact (hmoves m hm).1
    case hls =>
      intro h
      exact hne (List.map_eq_nil_iff.1 h)
  have hMnotinJ : "moves".data ∉ moves.map String.data := by
    intro hmem
    obtain ⟨m, hm, hdm⟩ := List.mem_map.1 hmem
    exact (hmoves m hm).2 (data_injective hdm)
  have hshape : ("position sfen " ++ board).data
      = "position".data ++ spc :: ("sfen".data ++ spc :: board.data) := rfl
  have ha0words : ("position sfen " ++ board).data.splitOn spc
      = "position".data :: "sfen".data :: board.data.splitOn spc := by
    rw [hshape, splitOn_append_sep, splitOn_append_sep]
    rw [splitOn_eq_single (by decide : spc ∉ "position".data)]
    rw [splitOn_eq_single (by decide : spc ∉ "sfen".data)]
    rfl
  have hMa0 : "moves".data ∉ ("position sfen " ++ board).data.splitOn spc := by
    rw [ha0words]
    simp only [List.mem_cons]
    rintro (h | h | h)
    · exact (by decide : ¬"moves".data = "position".data) h
    · exact (by decide : ¬"moves".data = "sfen".data) h
    · exact hboard h
  have hcount : ((build_position_command board moves).data.splitOn spc).count
      "moves".data = 1 := by
    have h1 : (("position sfen " ++ board).data.splitOn spc).count "moves".data = 0 :=
      List.count_eq_zero.2 hMa0
    have h2 : ((String.intercalate " " moves).data.splitOn spc).count "moves".data = 0 := by
      rw [hwordsJ]; exact List.count_eq_zero.2 hMnotinJ
    rw [hbuild, words_occurrence, List.count_append, h1, List.count_cons_self, h2]
  have huniq : ∀ a2 b2 : List Char,
      (build_position_command board moves).data = a2 ++ " moves ".data ++ b2 →
      a2 = ("position sfen " ++ board).data := by
    intro a2 b2 h2
    have w2 : (build_position_command board moves).data.splitOn spc
        = a2.splitOn spc ++ ("moves".data :: b2.splitOn spc) := by
      rw [h2, words_occurrence]
    have w1 : (build_position_command board moves).data.splitOn spc
        = ("position sfen " ++ board).data.splitOn spc
            ++ ("moves".data :: (String.intercalate " " moves).data.splitOn spc) := by
      rw [hbuild, words_occurrence]
    have hca2 : (a2.splitOn spc).count "moves".data = 0 := by
      have hc := hcount
      rw [w2, List.count_append, List.count_cons_self] at hc
      omega
    have hMa2 : "moves".data ∉ a2.splitOn spc := List.count_eq_zero.1 hca2
    have hw := single_sep_eq "moves".data (a2.splitOn spc)
      (("position sfen " ++ board).data.splitOn spc) _ _ (w2.symm.trans w1) hMa2 hMa0
    have hic := congrArg (List.intercalate [spc]) hw.1
    rwa [List.intercalate_splitOn a2 spc, List.intercalate_splitOn _ spc] at hic
  have hbr : breakOnSep " moves ".data (build_position_command board moves).data
      = some (("position sfen " ++ board).data,
              (String.intercalate " " moves).data) :=
    breakOnSep_first " moves ".data (by decide) _ _ _ hbuild huniq
  have hnone : breakOnSep " moves ".data (String.intercalate " " moves).data
      = none := by
    apply breakOnSep_none
    intro a b hab
    have hmem : "moves".data ∈ (String.intercalate " " moves).data.splitOn spc := by
      rw [hab, words_occurrence]
      exact List.mem_append_right _ (List.mem_cons_self _ _)
    rw [hwordsJ] at hmem
    exact hMnotinJ hmem
  rw [splitOnSep, splitOnSepFuel, hbr]
  simp only
  rw [splitOnSepFuel_none _ _ _ hnone]

/-! ### Keyword groups of an `info` line

A well-formed keyword-value group as the spec describes them: one of
`depth <v>`, `score cp <v>`, `nodes <v>`, `nps <v>`, `time <v>`. -/

inductive InfoKind where
  | depthK
  | scoreK
  | nodesK
  | npsK
  | timeK
deriving DecidableEq

structure InfoGroup where
  kind : InfoKind
  value : String
deriving DecidableEq

/-- The wire tokens of one keyword-value group. -/
def InfoGroup.tokens (g : InfoGroup) : List String :=
  match g.kind with
  | .depthK => ["depth", g.value]
  | .scoreK => ["score", "cp", g.value]
  | .nodesK => ["nodes", g.value]
  | .npsK => ["nps", g.value]
  | .timeK => ["time", g.value]

/-- The wire tokens of a sequence of groups. -/
def groupsTokens (gs : List InfoGroup) : List String :=
  (gs.map InfoGroup.tokens).flatten

/-- The field assignment a group performs on the scan record. -/
def InfoGroup.apply (g : InfoGroup) (acc : ThinkingInfo) : ThinkingInfo :=
  match g.kind with
  | .depthK => { acc with depth := parseU32 g.value }
  | .scoreK => { acc with score_cp := parseI32 g.value }
  | .nodesK => { acc with nodes := parseU64 g.value }
  | .npsK => { acc with nps := parseU64 g.value }
  | .timeK => { acc with time := parseU32 g.value }

theorem info_scan_depth (v : String) (rest : List String) (acc : ThinkingInfo) :
    info_scan ("depth" :: v :: rest) acc
      = info_scan rest { acc with depth := parseU32 v } := rfl

theorem info_scan_score (v : String) (rest : List String) (acc : ThinkingInfo) :
    info_scan ("score" :: "cp" :: v :: rest) acc
      = info_scan rest { acc with score_cp := parseI32 v } := rfl

theorem info_scan_nodes (v : String) (rest : List String) (acc : ThinkingInfo) :
    info_scan ("nodes" :: v :: rest) acc
      = info_scan rest { acc with nodes := parseU64 v } := rfl

theorem info_scan_nps (v : String) (rest : List String) (acc : ThinkingInfo) :
    info_scan ("nps" :: v :: rest) acc
      = info_scan rest { acc with nps := parseU64 v } := rfl

theorem info_scan_time (v : String) (rest : List String) (acc : ThinkingInfo) :
    info_scan ("time" :: v :: rest) acc
      = info_scan rest { acc with time := parseU32 v } := rfl

theorem info_scan_pv (rest : List String) (acc : ThinkingInfo) :
    info_scan ("pv" :: rest) acc = { acc with pv := rest } := rfl

/-- The scan consumes a sequence of keyword-value groups as the fold of
their field assignments. -/
theorem info_scan_groups (gs : List InfoGroup) : ∀ (rest : List String)
    (acc : ThinkingInfo),
    info_scan (groupsTokens gs ++ rest) acc
      = info_scan rest (gs.foldl (fun a g => g.apply a) acc) := by
  induction gs with
  | nil => intro rest acc; simp [groupsTokens]
  | cons g gs ih =>
    intro rest acc
    have hgt : groupsTokens (g :: gs) = g.tokens ++ groupsTokens gs := by
      simp [groupsTokens]
    rw [hgt, List.append_assoc, List.foldl_cons]
    cases hk : g.kind with
    | depthK =>
      simp only [InfoGroup.tokens, hk, List.cons_append, List.nil_append]
      rw [info_scan_depth, ih]
      simp [InfoGroup.apply, hk]
    | scoreK =>
      simp only [InfoGroup.tokens, hk, List.cons_append, List.nil_append]
      rw [info_scan_score, ih]
      simp [InfoGroup.apply, hk]
    | nodesK =>
      simp only [InfoGroup.tokens, hk, List.cons_append, List.nil_append]
      rw [info_scan_nodes, ih]
      simp [InfoGroup.apply, hk]
    | npsK =>
      simp only [InfoGroup.tokens, hk, List.cons_append, List.nil_append]
      rw [info_scan_nps, ih]
      simp [InfoGroup.apply, hk]
    | timeK =>
      simp only [InfoGroup.tokens, hk, List.cons_append, List.nil_append]
      rw [info_scan_time, ih]
      simp [InfoGroup.apply, hk]

/-- Assignments of groups of distinct kinds commute. -/
theorem apply_comm (x y : InfoGroup) (hk : x.kind ≠ y.kind) (z : ThinkingInfo) :
    y.apply (x.apply z) = x.apply (y.apply z) := by
  cases hx : x.kind <;> cases hy : y.kind <;>
    simp_all [InfoGroup.apply]

/-- Folding the assignments of groups with pairwise distinct kinds is
invariant under permutation. -/
theorem foldl_apply_perm (gs gs2 : List InfoGroup) (hp : gs.Perm gs2)
    (hnd : (gs.map InfoGroup.kind).Nodup) (acc : ThinkingInfo) :
    gs.foldl (fun a g => g.apply a) acc
      = gs2.foldl (fun a g => g.apply a) acc := by
  apply hp.foldl_eq'
  intro x hx y hy z
  by_cases hxy : x = y
  · subst hxy; rfl
  · have hk : x.kind ≠ y.kind := by
      intro hkk
      exact hxy (List.inj_on_of_nodup_map hnd hx hy hkk)
    exact apply_comm x y hk z

theorem wsTokensAux_skip_token : ∀ tok : List Char,
    (∀ c ∈ tok, c.isWhitespace = false) → ∀ l cur : List Char,
    wsTokensAux (tok ++ l) cur = wsTokensAux l (tok.reverse ++ cur) := by
  intro tok
  induction tok with
  | nil => intro _ l cur; simp
  | cons c t ih =>
    intro htok l cur
    have hns : c.isWhitespace = false := htok c (List.mem_cons_self c t)
    have step : wsTokensAux ((c :: t) ++ l) cur = wsTokensAux (t ++ l) (c :: cur) := by
      simp only [List.cons_append, wsTokensAux, hns, Bool.false_eq_true, if_false]
      rfl
    rw [step, ih (fun x hx => htok x (List.mem_cons_of_mem _ hx)) l (c :: cur)]
    simp [List.append_assoc]

theorem wsTokensAux_spc (l cur : List Char) :
    wsTokensAux (spc :: l) cur
      = if cur.isEmpty then wsTokensAux l []
        else cur.reverse :: wsTokensAux l [] := by
  have hws : spc.isWhitespace = true := by decide
  simp [wsTokensAux, hws]

theorem intercalate_cons_cons {α : Type} (sep x y : List α) (ys : List (List α)) :
    List.intercalate sep (x :: y :: ys)
      = x ++ sep ++ List.intercalate sep (y :: ys) := by
  rw [intercalate_cons_flatten, intercalate_cons_flatten sep y ys]
  simp [List.append_assoc]

/-- Space-joining whitespace-free non-empty tokens and re-splitting on
whitespace recovers the tokens. -/
theorem wsTokens_intercalate : ∀ toks : List (List Char), toks ≠ [] →
    (∀ t ∈ toks, t ≠ [] ∧ ∀ c ∈ t, c.isWhitespace = false) →
    wsTokens (List.intercalate [spc] toks) = toks := by
  intro toks
  induction toks with
  | nil => intro hne _; exact absurd rfl hne
  | cons t ts ih =>
    intro _ hok
    obtain ⟨htne, htok⟩ := hok t (List.mem_cons_self t ts)
    cases ts with
    | nil =>
      have h1 : List.intercalate [spc] [t] = t := by simp [List.intercalate]
      have h2 : t = t ++ ([] : List Char) := by simp
      rw [wsTokens, h1, h2, wsTokensAux_skip_token t htok [] []]
      have h3 : (t.reverse ++ ([] : List Char)).isEmpty = false := by
        cases ht : t.reverse with
        | nil => exact absurd (by simpa using ht) htne
        | cons a b => rfl
      simp [wsTokensAux, h3, htne]
    | cons t2 ts2 =>
      rw [intercalate_cons_cons]
      have h1 : t ++ [spc] ++ List.intercalate [spc] (t2 :: ts2)
          = t ++ (spc :: List.intercalate [spc] (t2 :: ts2)) := by
        simp [List.append_assoc]
      rw [wsTokens, h1, wsTokensAux_skip_token t htok _ []]
      rw [wsTokensAux_spc]
      have h3 : (t.reverse ++ ([] : List Char)).isEmpty = false := by
        cases ht : t.reverse with
        | nil => exact absurd (by simpa using ht) htne
        | cons a b => rfl
      rw [if_neg (by rw [h3]; simp)]
      have ihr := ih (by simp) (fun x hx => hok x (List.mem_cons_of_mem _ hx))
      rw [wsTokens] at ihr
      rw [ihr]
      simp

/-- Space-joining whitespace-free non-empty `String` tokens and applying
the model of `split_whitespace` recovers the tokens. -/
theorem splitWhitespace_intercalate (toks : List String) (hne : toks ≠ [])
    (hok : ∀ t ∈ toks, t.data ≠ [] ∧ ∀ c ∈ t.data, c.isWhitespace = false) :
    splitWhitespace (String.intercalate " " toks) = toks := by
  rw [splitWhitespace]
  have hd : (String.intercalate " " toks).data
      = List.intercalate [spc] (toks.map String.data) := by
    rw [intercalate_data]; rfl
  rw [hd, wsTokens_intercalate (toks.map String.data)
    (fun h => hne (List.map_eq_nil_iff.1 h))
    (fun l hl => by
      obtain ⟨m, hm, rfl⟩ := List.mem_map.1 hl
      exact hok m hm)]
  simp [List.map_map, Function.comp_def, mk_data_eq]

theorem not_bestmove_of_info (t : String)
    (h : isPrefList "info".data t.data = true) :
    isPrefList "bestmove".data t.data = false := by
  have hi : "info".data = 'i' :: "nfo".data := rfl
  have hb : "bestmove".data = 'b' :: "estmove".data := rfl
  cases hd : t.data with
  | nil =>
    rw [hd] at h
    exact absurd h (by decide)
  | cons c cs =>
    rw [hd] at h
    rw [hb]
    rw [hi] at h
    simp only [isPrefList, Bool.and_eq_true, beq_iff_eq] at h
    rw [← h.1]
    have hbi : (('b' : Char) == 'i') = false := by decide
    simp [isPrefList, hbi]

/-- Lines whose trimmed text has the `bestmove` prefix reach
`parse_bestmove`. -/
theorem parse_dispatch_bestmove (line : String)
    (hpre : isPrefList "bestmove".data (strTrim line).data = true) :
    parse_usi_line line = parse_bestmove (strTrim line) := by
  have h1 : ¬ strTrim line = "" := by
    intro he; rw [he] at hpre; exact absurd hpre (by decide)
  have h2 : ¬ strTrim line = "usiok" := by
    intro he; rw [he] at hpre; exact absurd hpre (by decide)
  have h3 : ¬ strTrim line = "readyok" := by
    intro he; rw [he] at hpre; exact absurd hpre (by decide)
  rw [parse_usi_line]
  simp [h1, h2, h3, hpre]

/-- Lines whose trimmed text has the `info` prefix reach `parse_info`. -/
theorem parse_dispatch_info (line : String)
    (hpre : isPrefList "info".data (strTrim line).data = true) :
    parse_usi_line line = parse_info (strTrim line) := by
  have h1 : ¬ strTrim line = "" := by
    intro he; rw [he] at hpre; exact absurd hpre (by decide)
  have h2 : ¬ strTrim line = "usiok" := by
    intro he; rw [he] at hpre; exact absurd hpre (by decide)
  have h3 : ¬ strTrim line = "readyok" := by
    intro he; rw [he] at hpre; exact absurd hpre (by decide)
  have h4 := not_bestmove_of_info (strTrim line) hpre
  rw [parse_usi_line]
  simp [h1, h2, h3, h4, hpre]

/-- The numeric field a kind selects, injected into `Int` for uniformity. -/
def InfoKind.fieldInt : InfoKind → ThinkingInfo → Option Int
  | .depthK, i => i.depth.map (fun n => (n : Int))
  | .scoreK, i => i.score_cp
  | .nodesK, i => i.nodes.map (fun n => (n : Int))
  | .npsK, i => i.nps.map (fun n => (n : Int))
  | .timeK, i => i.time.map (fun n => (n : Int))

/-- The parsed value a group assigns, injected into `Int`. -/
def InfoGroup.parsedInt (g : InfoGroup) : Option Int :=
  match g.kind with
  | .depthK => (parseU32 g.value).map (fun n => (n : Int))
  | .scoreK => parseI32 g.value
  | .nodesK => (parseU64 g.value).map (fun n => (n : Int))
  | .npsK => (parseU64 g.value).map (fun n => (n : Int))
  | .timeK => (parseU32 g.value).map (fun n => (n : Int))

theorem fieldInt_apply_same (k : InfoKind) (g : InfoGroup) (hk : g.kind = k)
    (i : ThinkingInfo) : k.fieldInt (g.apply i) = g.parsedInt := by
  cases k <;>
    simp [InfoKind.fieldInt, InfoGroup.apply, InfoGroup.parsedInt, hk]

theorem fieldInt_apply_other (k : InfoKind) (g : InfoGroup) (hk : ¬ g.kind = k)
    (i : ThinkingInfo) : k.fieldInt (g.apply i) = k.fieldInt i := by
  cases hg : g.kind <;> cases k <;>
    simp_all [InfoKind.fieldInt, InfoGroup.apply]

/-- Folding group assignments leaves each field at the parsed value of the
last group of its kind (absent when no such group exists). -/
theorem fieldInt_foldl (k : InfoKind) : ∀ gs : List InfoGroup,
    k.fieldInt (gs.foldl (fun a g => g.apply a) ThinkingInfo.new)
      = ((gs.filter (fun g => g.kind == k)).getLast?).bind
          InfoGroup.parsedInt := by
  intro gs
  induction gs using List.reverseRecOn with
  | nil => cases k <;> rfl
  | append_singleton gs g ih =>
    rw [List.foldl_append, List.foldl_cons, List.foldl_nil, List.filter_append]
    by_cases hgk : g.kind = k
    · rw [fieldInt_apply_same k g hgk]
      have hf : List.filter (fun g => g.kind == k) [g] = [g] := by
        have hb2 : (g.kind == k) = true := by simp [hgk]
        simp [List.filter, hb2]
      rw [hf, List.getLast?_concat]
      rfl
    · rw [fieldInt_apply_other k g hgk, ih]
      have hf : List.filter (fun g => g.kind == k) [g] = [] := by
        have hb2 : (g.kind == k) = false := by simp [hgk]
        simp [List.filter, hb2]
      rw [hf, List.append_nil]

/-- The space-split words of a built position prefix. -/
theorem position_words (board : String) :
    ("position sfen " ++ board).data.splitOn spc
      = "position".data :: "sfen".data :: board.data.splitOn spc := by
  have hshape : ("position sfen " ++ board).data
      = "position".data ++ spc :: ("sfen".data ++ spc :: board.data) := rfl
  rw [hshape, splitOn_append_sep, splitOn_append_sep]
  rw [splitOn_eq_single (by decide : spc ∉ "position".data)]
  rw [splitOn_eq_single (by decide : spc ∉ "sfen".data)]
  rfl

theorem position_no_moves_word (board : String)
    (hboard : "moves".data ∉ board.data.splitOn spc) :
    "moves".data ∉ ("position sfen " ++ board).data.splitOn spc := by
  rw [position_words]
  simp only [List.mem_cons]
  rintro (h | h | h)
  · exact (by decide : ¬"moves".data = "position".data) h
  · exact (by decide : ¬"moves".data = "sfen".data) h
  · exact hboard h

/-- With no moves the built command contains no `" moves "` occurrence, so
splitting on the separator returns it whole. -/
theorem position_splitOnSep_empty (board : String)
    (hboard : "moves".data ∉ board.data.splitOn spc) :
    splitOnSep " moves ".data ("position sfen " ++ board).data
      = [("position sfen " ++ board).data] := by
  have hnone : breakOnSep " moves ".data ("position sfen " ++ board).data
      = none := by
    apply breakOnSep_none
    intro a b hab
    have hmem : "moves".data ∈ ("position sfen " ++ board).data.splitOn spc := by
      rw [hab, words_occurrence]
      exact List.mem_append_right _ (List.mem_cons_self _ _)
    exact position_no_moves_word board hboard hmem
  rw [splitOnSep]
  exact splitOnSepFuel_none _ _ _ hnone

/-- Space-joined whitespace-free moves split back on spaces to the original
move list. -/
theorem intercalate_words (moves : List String) (hne : moves ≠ [])
    (hmoves : ∀ m ∈ moves, spc ∉ m.data) :
    (String.intercalate " " moves).data.splitOn spc
      = moves.map String.data := by
  have hJd : (String.intercalate " " moves).data
      = List.intercalate [spc] (moves.map String.data) := by
    rw [intercalate_data]; rfl
  rw [hJd]
  refine List.splitOn_intercalate (moves.map String.data) spc ?_ ?_
  · intro l hl
    obtain ⟨m, hm, rfl⟩ := List.mem_map.1 hl
    exact hmoves m hm
  · intro h
    exact hne (List.map_eq_nil_iff.1 h)

/-- A non-empty whitespace-free token, as needed for the wire format. -/
abbrev tokenOk (s : String) : Prop :=
  s.data ≠ [] ∧ ∀ c ∈ s.data, c.isWhitespace = false

/-- The data-model invariant of the session: the stdin write-end handle is
present exactly when the process handle is. -/
abbrev handles_paired (st : UsiEngine) : Prop := st.stdin = st.child

/-! ## Claims -/

/-- C1 (amended): `UsiEngine::quit` on a session holding the stdin handle
sends `quit`, clears both handles and succeeds; on a stopped or
never-started session the initial `send_command` fails with
`Engine not started` and the state is unchanged — so two successive quits
yield success then that error, with both handles absent after each call. -/
theorem C1_quit_behaviour :
    (∀ st : UsiEngine, st.stdin = true →
      st.quit = (.ok (), { st with sent := st.sent ++ [build_quit_command],
                                   child := false, stdin := false })) ∧
    (∀ st : UsiEngine, st.stdin = false →
      st.quit = (.error "Engine not started", st)) := by
  constructor
  · intro st h
    rw [UsiEngine.quit, UsiEngine.send_command, if_pos h]
  · intro st h
    rw [UsiEngine.quit, UsiEngine.send_command, if_neg (by simp [h])]

theorem C1_quit_behaviour_witness :
    (UsiEngine.mk true true [] []).quit
        = (.ok (), UsiEngine.mk false false [] ["quit"]) ∧
    (UsiEngine.mk false false [] []).quit
        = (.error "Engine not started", UsiEngine.mk false false [] []) :=
  ⟨C1_quit_behaviour.1 (UsiEngine.mk true true [] []) rfl,
   C1_quit_behaviour.2 (UsiEngine.mk false false [] []) rfl⟩

/-- C1 counterexample: starting a session and quitting twice — the first
quit succeeds, the second fails with `Engine not started` instead of
being a no-op success. -/
theorem C1_counterexample :
    (UsiEngine.new.start .ok).2.quit.1 = .ok () ∧
    (UsiEngine.new.start .ok).2.quit.2.quit.1
      = .error "Engine not started" := by
  exact ⟨rfl, rfl⟩

/-- C2 (amended): with a non-empty buffer `read_response_line` pops the
oldest line immediately — zero sleeps — for every timeout, zero included;
with an empty buffer it fails with the timeout error after exactly
`timeout / 10 + 1` ten-millisecond sleeps, i.e. it can block up to one poll
interval beyond the budget but never indefinitely. -/
theorem C2_receive_line_behaviour :
    (∀ (st : UsiEngine) (t : Nat) (l : String) (rest : List String),
      st.response_buffer = l :: rest →
      st.read_poll t 0 = ((.ok l, { st with response_buffer := rest }), 0)) ∧
    (∀ (st : UsiEngine) (t : Nat), st.response_buffer = [] →
      (st.read_poll t 0).1
          = (.error "Timeout waiting for engine response", st) ∧
      (st.read_poll t 0).2 = t / 10 + 1) := by
  constructor
  · intro st t l rest h
    exact read_poll_buffer_cons st t 0 l rest h
  · intro st t h
    refine ⟨read_poll_buffer_empty st t 0 h, ?_⟩
    rw [read_poll_sleeps st t 0 h]
    simp

theorem C2_receive_line_behaviour_witness :
    (UsiEngine.mk true true ["a", "b"] []).read_poll 0 0
        = ((.ok "a", UsiEngine.mk true true ["b"] []), 0) ∧
    ((UsiEngine.mk true true [] []).read_poll 7 0).2 = 7 / 10 + 1 :=
  ⟨C2_receive_line_behaviour.1 (UsiEngine.mk true true ["a", "b"] []) 0 "a"
      ["b"] rfl,
   (C2_receive_line_behaviour.2 (UsiEngine.mk true true [] []) 7 rfl).2⟩

/-- C2 counterexample: with an empty buffer and a zero timeout the poll
loop still sleeps once — 10 ms of blocking past the zero budget — before
failing with the timeout error. -/
theorem C2_counterexample :
    (UsiEngine.new.read_poll 0 0).1
        = (.error "Timeout waiting for engine response", UsiEngine.new) ∧
    (UsiEngine.new.read_poll 0 0).2 = 1 ∧ (0 : Nat) < 10 * 1 := by
  refine ⟨read_poll_buffer_empty UsiEngine.new 0 0 rfl, ?_, by norm_num⟩
  rw [read_poll_sleeps UsiEngine.new 0 0 rfl]
  norm_num

/-- C8: every session operation preserves the invariant that the stdin
write-end handle is present exactly when the process handle is. -/
theorem C8_handles_invariant :
    handles_paired UsiEngine.new ∧
    (∀ (st : UsiEngine) (o : StartOutcome), handles_paired st →
      handles_paired (st.start o).2) ∧
    (∀ (st : UsiEngine) (c : String), handles_paired st →
      handles_paired (st.send_command c).2) ∧
    (∀ (st : UsiEngine) (t : Nat), handles_paired st →
      handles_paired (st.read_response_line t).2) ∧
    (∀ st : UsiEngine, handles_paired st → handles_paired st.init.2) ∧
    (∀ (st : UsiEngine) (sfen : String) (t : Nat), handles_paired st →
      handles_paired (st.get_best_move sfen t).2) ∧
    (∀ st : UsiEngine, handles_paired st → handles_paired st.stop.2) ∧
    (∀ st : UsiEngine, handles_paired st → handles_paired st.quit.2) := by
  refine ⟨rfl, ?_, ?_, ?_, ?_, ?_, ?_, ?_⟩
  · intro st o h
    cases o
    · exact h
    · exact h
    · exact h
    · rfl
  · intro st c h
    have e := send_command_handles st c
    exact (e.1.trans h).trans e.2.symm
  · intro st t h
    have e := read_response_line_handles st t
    exact (e.1.trans h).trans e.2.symm
  · intro st h
    have e := init_handles st
    exact (e.1.trans h).trans e.2.symm
  · intro st sfen t h
    have e := get_best_move_handles st sfen t
    exact (e.1.trans h).trans e.2.symm
  · intro st h
    have e := send_command_handles st build_stop_command
    exact (e.1.trans h).trans e.2.symm
  · intro st h
    by_cases hs : st.stdin = true
    · rw [UsiEngine.quit, UsiEngine.send_command, if_pos hs]
    · have hs2 : st.stdin = false := by
        cases hv : st.stdin
        · rfl
        · exact absurd hv hs
      rw [UsiEngine.quit, UsiEngine.send_command, if_neg (by simp [hs2])]
      exact h

theorem C8_handles_invariant_witness :
    handles_paired (UsiEngine.new.start .ok).2 ∧
    handles_paired ((UsiEngine.mk true true ["bestmove 1a1b"] []).get_best_move
        "B" 10).2 ∧
    handles_paired (UsiEngine.mk false false [] []).quit.2 :=
  ⟨C8_handles_invariant.2.1 UsiEngine.new .ok rfl,
   C8_handles_invariant.2.2.2.2.2.1 (UsiEngine.mk true true ["bestmove 1a1b"] [])
      "B" 10 rfl,
   C8_handles_invariant.2.2.2.2.2.2.2 (UsiEngine.mk false false [] []) rfl⟩

/-- C3 (amended): provided every move is a space-free token different from
the word `moves` and the board has no space-delimited `moves` token,
`build_position_command` round-trips — splitting the produced string on the
literal `" moves "` separator and re-splitting the right part on spaces
yields the original move sequence (empty when `moves` is empty); and with no
moves the produced string is exactly `position sfen {board}` and contains no
`moves` token. -/
theorem C3_position_roundtrip (board : String) (moves : List String)
    (hmoves : ∀ m ∈ moves, spc ∉ m.data ∧ m ≠ "moves")
    (hboard : "moves".data ∉ board.data.splitOn spc) :
    roundTripMoves (build_position_command board moves) = moves ∧
    build_position_command board [] = "position sfen " ++ board ∧
    "moves".data ∉ (build_position_command board []).data.splitOn spc := by
  have hb0 : build_position_command board [] = "position sfen " ++ board := rfl
  refine ⟨?_, hb0, ?_⟩
  · rcases moves with _ | ⟨m, ms⟩
    · rw [roundTripMoves, hb0, position_splitOnSep_empty board hboard]
    · rw [roundTripMoves,
        position_splitOnSep board (m :: ms) hmoves hboard (by simp)]
      simp only
      rw [intercalate_words (m :: ms) (by simp)
        (fun x hx => (hmoves x hx).1)]
      simp [List.map_map, Function.comp_def, mk_data_eq]
  · rw [hb0]
    exact position_no_moves_word board hboard

theorem C3_position_roundtrip_witness :
    roundTripMoves (build_position_command "k 1" ["7g7f", "3c3d"])
        = ["7g7f", "3c3d"] ∧
    build_position_command "k 1" [] = "position sfen k 1" ∧
    "moves".data ∉ (build_position_command "k 1" []).data.splitOn spc :=
  C3_position_roundtrip "k 1" ["7g7f", "3c3d"] (by decide) (by decide)

/-- C3 counterexample: with a move containing a space the round-trip fails
on the code — the recovered sequence is `["a", "b"]`, not the original
one-element sequence `["a b"]`. -/
theorem C3_counterexample :
    roundTripMoves (build_position_command "k" ["a b"]) = ["a", "b"] ∧
    ¬ roundTripMoves (build_position_command "k" ["a b"]) = ["a b"] := by
  constructor
  · decide
  · decide

/-- C4: for every trimmed line beginning with `bestmove`, splitting on
whitespace: fewer than two tokens parse to `Unknown` of the line; otherwise
the result is `BestMove` of token 1, with ponder equal to token 3 exactly
when there are at least four tokens and token 2 is the literal `ponder`;
in particular `bestmove 7g7f ponder 3c3d` parses to
`BestMove "7g7f" (some "3c3d")`. -/
theorem C4_bestmove_parsing :
    (∀ t : String, strTrim t = t →
      isPrefList "bestmove".data t.data = true →
      ((splitWhitespace t).length < 2 → parse_usi_line t = .Unknown t) ∧
      (2 ≤ (splitWhitespace t).length →
        parse_usi_line t
          = .BestMove ((splitWhitespace t).getD 1 "")
              (if 4 ≤ (splitWhitespace t).length ∧
                  (splitWhitespace t).getD 2 "" = "ponder"
               then some ((splitWhitespace t).getD 3 "") else none))) ∧
    parse_usi_line "bestmove 7g7f ponder 3c3d"
      = .BestMove "7g7f" (some "3c3d") := by
  constructor
  · intro t htrim hpre
    have hd := parse_dispatch_bestmove t (by rw [htrim]; exact hpre)
    rw [htrim] at hd
    constructor
    · intro hlt
      rw [hd, parse_bestmove]
      simp [hlt]
    · intro hge
      rw [hd, parse_bestmove]
      simp [Nat.not_lt.2 hge]
  · decide

theorem C4_bestmove_parsing_witness :
    parse_usi_line "bestmove" = .Unknown "bestmove" ∧
    parse_usi_line "bestmove 8h2b ponder 3c3d"
      = .BestMove "8h2b" (some "3c3d") := by
  constructor
  · exact (C4_bestmove_parsing.1 "bestmove" (by decide) (by decide)).1
      (by decide)
  · have h := (C4_bestmove_parsing.1 "bestmove 8h2b ponder 3c3d" (by decide)
      (by decide)).2 (by decide)
    rw [h]
    decide

/-- Every token of a group with a whitespace-free non-empty value is a
whitespace-free non-empty token. -/
theorem tokens_tokenOk (g : InfoGroup) (hv : tokenOk g.value) :
    ∀ t ∈ g.tokens, tokenOk t := by
  intro t ht
  cases hk : g.kind <;>
    simp only [InfoGroup.tokens, hk, List.mem_cons, List.not_mem_nil,
      or_false] at ht
  · rcases ht with rfl | rfl
    · exact ⟨by decide, by decide⟩
    · exact hv
  · rcases ht with rfl | rfl | rfl
    · exact ⟨by decide, by decide⟩
    · exact ⟨by decide, by decide⟩
    · exact hv
  · rcases ht with rfl | rfl
    · exact ⟨by decide, by decide⟩
    · exact hv
  · rcases ht with rfl | rfl
    · exact ⟨by decide, by decide⟩
    · exact hv
  · rcases ht with rfl | rfl
    · exact ⟨by decide, by decide⟩
    · exact hv

/-- C5: permuting the well-formed keyword-value groups preceding `pv` in an
info line (kinds pairwise distinct, values whitespace-free tokens) yields
the same parsed record; `pv` always consumes every remaining token and ends
the scan; and the canonical example parses to the expected record. -/
theorem C5_info_order_independent :
    (∀ (gs gs2 : List InfoGroup) (pvs : List String),
      gs.Perm gs2 → (gs.map InfoGroup.kind).Nodup →
      (∀ g ∈ gs, tokenOk g.value) → (∀ p ∈ pvs, tokenOk p) →
      parse_info (String.intercalate " "
          ("info" :: (groupsTokens gs ++ "pv" :: pvs)))
        = parse_info (String.intercalate " "
            ("info" :: (groupsTokens gs2 ++ "pv" :: pvs)))) ∧
    (∀ (rest : List String) (acc : ThinkingInfo),
      info_scan ("pv" :: rest) acc = { acc with pv := rest }) ∧
    parse_usi_line
        "info depth 5 score cp 100 nodes 1000 nps 50000 time 20 pv 7g7f 3c3d"
      = .Info { depth := some 5, score_cp := some 100, nodes := some 1000,
                nps := some 50000, time := some 20,
                pv := ["7g7f", "3c3d"] } := by
  refine ⟨?_, info_scan_pv, by decide⟩
  intro gs gs2 pvs hp hnd hgs hpvs
  have htokens : ∀ gs3 : List InfoGroup, (∀ g ∈ gs3, tokenOk g.value) →
      ∀ t ∈ "info" :: (groupsTokens gs3 ++ "pv" :: pvs),
        t.data ≠ [] ∧ ∀ c ∈ t.data, c.isWhitespace = false := by
    intro gs3 hgs3 t ht
    rcases List.mem_cons.1 ht with rfl | ht2
    · exact ⟨by decide, by decide⟩
    rcases List.mem_append.1 ht2 with ht3 | ht4
    · rw [groupsTokens] at ht3
      obtain ⟨ts, hts, htts⟩ := List.mem_flatten.1 ht3
      obtain ⟨g, hg, rfl⟩ := List.mem_map.1 hts
      exact tokens_tokenOk g (hgs3 g hg) t htts
    rcases List.mem_cons.1 ht4 with rfl | ht5
    · exact ⟨by decide, by decide⟩
    · exact hpvs t ht5
  rw [parse_info, parse_info]
  rw [splitWhitespace_intercalate _ (by simp) (htokens gs hgs)]
  rw [splitWhitespace_intercalate _ (by simp)
    (htokens gs2 (fun g hg => hgs g (hp.mem_iff.2 hg)))]
  simp only [List.drop_succ_cons, List.drop_zero]
  rw [info_scan_groups gs, info_scan_groups gs2]
  rw [info_scan_pv, info_scan_pv]
  rw [foldl_apply_perm gs gs2 hp hnd]

theorem C5_info_order_independent_witness :
    parse_info (String.intercalate " "
        ("info" :: (groupsTokens [⟨.depthK, "5"⟩, ⟨.scoreK, "100"⟩]
          ++ "pv" :: ["7g7f"])))
      = parse_info (String.intercalate " "
          ("info" :: (groupsTokens [⟨.scoreK, "100"⟩, ⟨.depthK, "5"⟩]
            ++ "pv" :: ["7g7f"]))) :=
  C5_info_order_independent.1 [⟨.depthK, "5"⟩, ⟨.scoreK, "100"⟩]
    [⟨.scoreK, "100"⟩, ⟨.depthK, "5"⟩] ["7g7f"]
    (by decide) (by decide) (by decide) (by decide)

/-- C6: the parser is total — every line yields some response variant; a
trimmed line with the `info` prefix always yields `Info`; a value that fails
numeric parsing leaves the corresponding field absent without failing the
line; a line matching no case yields `Unknown` of the trimmed line; empty
(or all-whitespace) input yields `Unknown ""`. -/
theorem C6_parser_total :
    (∀ line : String, ∃ r : UsiResponse, parse_usi_line line = r) ∧
    (∀ line : String, isPrefList "info".data (strTrim line).data = true →
      ∃ i : ThinkingInfo, parse_usi_line line = .Info i) ∧
    (∀ (v : String) (rest : List String) (acc : ThinkingInfo),
      parseU32 v = none →
      info_scan ("depth" :: v :: rest) acc
        = info_scan rest { acc with depth := none }) ∧
    (∀ line : String, strTrim line = "" → parse_usi_line line = .Unknown "") ∧
    (∀ line : String, ¬ strTrim line = "" → ¬ strTrim line = "usiok" →
      ¬ strTrim line = "readyok" →
      isPrefList "bestmove".data (strTrim line).data = false →
      isPrefList "info".data (strTrim line).data = false →
      parse_usi_line line = .Unknown (strTrim line)) := by
  refine ⟨fun line => ⟨_, rfl⟩, ?_, ?_, ?_, ?_⟩
  · intro line hpre
    rw [parse_dispatch_info line hpre, parse_info]
    exact ⟨_, rfl⟩
  · intro v rest acc h
    rw [info_scan_depth, h]
  · intro line h
    rw [parse_usi_line]
    simp [h]
  · intro line h1 h2 h3 h4 h5
    rw [parse_usi_line]
    simp [h1, h2, h3, h4, h5]

theorem C6_parser_total_witness :
    (∃ i : ThinkingInfo, parse_usi_line "information depth x" = .Info i) ∧
    info_scan ["depth", "x"] ThinkingInfo.new
      = info_scan [] { ThinkingInfo.new with depth := none } ∧
    parse_usi_line "  " = .Unknown "" ∧
    parse_usi_line " gameover win " = .Unknown "gameover win" := by
  refine ⟨C6_parser_total.2.1 "information depth x" (by decide),
    C6_parser_total.2.2.1 "x" [] ThinkingInfo.new (by decide),
    C6_parser_total.2.2.2.1 "  " (by decide),
    C6_parser_total.2.2.2.2 " gameover win " (by decide) (by decide)
      (by decide) (by decide) (by decide) |>.trans (by decide)⟩

/-- C9: when a recognized keyword group appears several times before `pv`,
the later assignment overwrites the earlier: every numeric field of the
scanned record equals the parsed value of the last group of its kind
(absent when there is none); in particular `info depth 3 depth 7` yields
depth 7. -/
theorem C9_last_occurrence_wins :
    (∀ (gs : List InfoGroup) (k : InfoKind),
      k.fieldInt (info_scan (groupsTokens gs) ThinkingInfo.new)
        = ((gs.filter (fun g => g.kind == k)).getLast?).bind
            InfoGroup.parsedInt) ∧
    parse_usi_line "info depth 3 depth 7"
      = .Info { ThinkingInfo.new with depth := some 7 } := by
  constructor
  · intro gs k
    have h := info_scan_groups gs [] ThinkingInfo.new
    rw [List.append_nil] at h
    rw [h]
    exact fieldInt_foldl k gs
  · decide

/-- C10: line classification dispatches on string prefixes, not exact first
tokens: every trimmed line starting with the characters `bestmove` is handed
to bestmove parsing (`bestmovefoo bar` parses to `BestMove` with move
`bar`), and every trimmed line starting with `info` — `information ...`
included — is parsed as search info rather than `Unknown`. -/
theorem C10_prefix_dispatch :
    (∀ line : String,
      isPrefList "bestmove".data (strTrim line).data = true →
      parse_usi_line line = parse_bestmove (strTrim line)) ∧
    (∀ line : String,
      isPrefList "info".data (strTrim line).data = true →
      parse_usi_line line = parse_info (strTrim line)) ∧
    parse_usi_line "bestmovefoo bar" = .BestMove "bar" none ∧
    parse_usi_line "information depth 5"
      = .Info { ThinkingInfo.new with depth := some 5 } :=
  ⟨parse_dispatch_bestmove, parse_dispatch_info, by decide, by decide⟩

theorem C10_prefix_dispatch_witness :
    parse_usi_line " bestmoveZ q " = parse_bestmove "bestmoveZ q" ∧
    parse_usi_line "infox 3" = parse_info "infox 3" := by
  constructor
  · have h := C10_prefix_dispatch.1 " bestmoveZ q " (by decide)
    rw [h]
    decide
  · have h := C10_prefix_dispatch.2.1 "infox 3" (by decide)
    rw [h]
    decide

/-- C7 (amended): `get_best_move` takes only a board string and a time
budget — there is no move-list parameter — and, when the stdin handle is
present, sends exactly the bare `build_position_command sfen []` followed by
`build_go_byoyomi_command time_ms`, then reads lines with per-line timeout
`time_ms + 5000` ms, discarding every non-`BestMove` response (`Info`
included) and returning the move of the first `BestMove`; with no `BestMove`
among the buffered lines the call fails with the timeout error after
draining the buffer. -/
theorem C7_get_best_move_behaviour (st : UsiEngine) (sfen : String)
    (time_ms : Nat) (h : st.stdin = true) :
    st.get_best_move sfen time_ms =
      match first_best_move st.response_buffer with
      | some (m, rem) =>
        (.ok m, { st with
            sent := st.sent ++ [build_position_command sfen [],
                                build_go_byoyomi_command time_ms],
            response_buffer := rem })
      | none =>
        (.error "Timeout waiting for engine response",
         { st with
            sent := st.sent ++ [build_position_command sfen [],
                                build_go_byoyomi_command time_ms],
            response_buffer := [] }) := by
  rw [UsiEngine.get_best_move]
  have hsend1 : st.send_command (build_position_command sfen [])
      = (.ok (), { st with
          sent := st.sent ++ [build_position_command sfen []] }) := by
    rw [UsiEngine.send_command, if_pos h]
  rw [hsend1]
  simp only
  have hsend2 : ({ st with
        sent := st.sent ++ [build_position_command sfen []] } :
          UsiEngine).send_command (build_go_byoyomi_command time_ms)
      = (.ok (), { st with
          sent := st.sent ++ [build_position_command sfen [],
                              build_go_byoyomi_command time_ms] }) := by
    rw [UsiEngine.send_command, if_pos h]
    simp [List.append_assoc]
  rw [hsend2]
  simp only
  rw [bestmove_loop_spec]

theorem C7_get_best_move_behaviour_witness :
    (UsiEngine.mk true true ["info depth 1", "bestmove 2g2f", "junk"]
        []).get_best_move "B" 50
      = (.ok "2g2f", UsiEngine.mk true true ["junk"]
          [build_position_command "B" [], build_go_byoyomi_command 50]) := by
  have h := C7_get_best_move_behaviour
    (UsiEngine.mk true true ["info depth 1", "bestmove 2g2f", "junk"] [])
    "B" 50 rfl
  rw [h]
  have hf : first_best_move ["info depth 1", "bestmove 2g2f", "junk"]
      = some ("2g2f", ["junk"]) := by decide
  simp [hf]

/-- C7 counterexample: the position command `get_best_move` sends is always
the bare empty-moves one — for board `B` it sends
`build_position_command "B" []`, which differs from the command for the
board with any move sequence such as `["7g7f"]`; there is no way to make it
send the latter. -/
theorem C7_counterexample :
    ((UsiEngine.mk true true ["bestmove 7g7f"] []).get_best_move "B" 100).2.sent
        = [build_position_command "B" [], build_go_byoyomi_command 100] ∧
    ((UsiEngine.mk true true ["bestmove 7g7f"] []).get_best_move "B" 100).1
        = .ok "7g7f" ∧
    ¬ build_position_command "B" []
        = build_position_command "B" ["7g7f"] := by
  have hgb : (UsiEngine.mk true true ["bestmove 7g7f"] []).get_best_move "B" 100
      = (.ok "7g7f", UsiEngine.mk true true []
          [build_position_command "B" [], build_go_byoyomi_command 100]) := by
    rw [UsiEngine.get_best_move]
    have hs1 : (UsiEngine.mk true true ["bestmove 7g7f"] []).send_command
        (build_position_command "B" [])
        = (.ok (), UsiEngine.mk true true ["bestmove 7g7f"]
            [build_position_command "B" []]) := rfl
    rw [hs1]
    simp only
    have hs2 : (UsiEngine.mk true true ["bestmove 7g7f"]
          [build_position_command "B" []]).send_command
          (build_go_byoyomi_command 100)
        = (.ok (), UsiEngine.mk true true ["bestmove 7g7f"]
            [build_position_command "B" [], build_go_byoyomi_command 100]) :=
      rfl
    rw [hs2]
    simp only
    rw [bestmove_loop_spec]
    have hf : first_best_move ["bestmove 7g7f"] = some ("7g7f", []) := by
      decide
    simp [hf]
  rw [hgb]
  exact ⟨rfl, rfl, by decide⟩

end Usi
